import Mathlib

/-!
Verification development for the theme-edit reconciliation engine of the
av-verbs survey-coding app (source: `src/src/App.jsx`).

The development shallowly embeds:

* the structured edit engine `applyStructuredEdits` (merge / split / replace /
  delete / insert operations applied in fixed phases),
* the legacy per-field patch applier `applyLegacyPatches`,
* the lenient JSON result parser `parseJsonMaybe` (including a faithful
  executable model of `JSON.parse` on the JSON grammar),
* the coverage-percentage computation shown next to each theme
  (`computeQuestionUniverse`, the union fallback, the floor-at-1 denominator
  and the one-decimal rounding), modelled in exact rational arithmetic.

JavaScript conventions are embedded as follows: a field that may be absent
(`undefined`) or may fail a `Number.isFinite` / `Array.isArray` guard is an
`Option`; participant-id values (strings or numbers) are `CellVal` with the
`String(...)` coercion `CellVal.toStr`; machine indices are `Int` (the code
only ever range-checks and clamps them); `arr.splice` based removal and
insertion become `List.eraseIdx` and take/append/drop.
-/

namespace AvVerbs

/-- A primitive JS value as it occurs in participant-id lists and CSV cells:
a string or an (integral) number.  `null`/`undefined` are represented by
`Option.none` at use sites, mirroring the `??` / `!= null` guards in the
source. -/
inductive CellVal where
  | str (s : String)
  | num (n : Int)
deriving DecidableEq, Repr

/-- The JS `String(v)` coercion applied to a cell value. -/
def CellVal.toStr : CellVal → String
  | .str s => s
  | .num n => toString n

/-- A fully-populated theme record as stored in the app's results state
(`{ ThemeLabel, Definition, RepresentativeKeywords, ParticipantID }`,
participant ids already coerced to strings, the invariant the engine's
`normalizeTheme` maintains). -/
structure Theme where
  ThemeLabel : String
  Definition : String
  RepresentativeKeywords : List String
  ParticipantID : List String
deriving DecidableEq, Repr

/-- The (partial) theme-shaped fields carried by an edit operation or legacy
patch.  `none` models an absent field, and for the two array fields also a
value failing the source's `Array.isArray` test. -/
structure ThemeFields where
  ThemeLabel : Option String
  Definition : Option String
  RepresentativeKeywords : Option (List String)
  ParticipantID : Option (List CellVal)
deriving DecidableEq, Repr

/-- Theme fields with every field absent. -/
def ThemeFields.empty : ThemeFields := ⟨none, none, none, none⟩

/-- `normalizeTheme` from `App.jsx`: builds a total theme from partial fields,
defaulting the label to `fallbackLabel`, definition to `""`, keywords to `[]`
and participant ids to `[]`, with each id coerced via `String(...)`. -/
def normalizeTheme (t : ThemeFields) (fallbackLabel : String) : Theme :=
  { ThemeLabel := t.ThemeLabel.getD fallbackLabel
    Definition := t.Definition.getD ""
    RepresentativeKeywords := t.RepresentativeKeywords.getD []
    ParticipantID := (t.ParticipantID.getD []).map CellVal.toStr }

/-- `clamp(n, lo, hi) = Math.max(lo, Math.min(hi, n))` from `App.jsx`. -/
def clamp (n lo hi : Int) : Int := max lo (min hi n)

/-- `arr.splice(n, 0, ...xs)` as a pure function: insert the block `xs` at
position `n` (positions past the end append, exactly like `splice`). -/
def insertManyAt (a : List α) (n : Nat) (xs : List α) : List α :=
  a.take n ++ xs ++ a.drop n

/-- One step of the source's removal loops:
`if (i >= 0 && i < arr.length) arr.splice(i, 1)`. -/
def eraseIfInRange (a : List α) (i : Int) : List α :=
  if 0 ≤ i ∧ i < (a.length : Int) then a.eraseIdx i.toNat else a

/-- A tagged structured edit operation (the five `op` kinds accepted by the
engine).  Index-valued fields are `Option Int`: `none` models a missing field
(for which `Number(...)` yields `NaN` and the `Number.isFinite` guard fails);
list-valued fields are `Option` for the `Array.isArray` guard. -/
inductive EditOp where
  | merge (indices : Option (List Int)) (fields : ThemeFields)
      (insertIndex : Option Int)
  | split (index : Option Int) (replacements : Option (List ThemeFields))
      (insertIndex : Option Int)
  | replace (index : Option Int) (theme : ThemeFields)
  | delete (indices : Option (List Int))
  | insert (index : Option Int) (theme : ThemeFields)
deriving DecidableEq, Repr

/-- `o.op === 'merge' || o.op === 'split'` (the phase-1 filter). -/
def EditOp.isMergeOrSplit : EditOp → Bool
  | .merge _ _ _ => true
  | .split _ _ _ => true
  | _ => false

/-- `o.op === 'delete'`. -/
def EditOp.isDeleteOp : EditOp → Bool
  | .delete _ => true
  | _ => false

/-- `o.op === 'replace'`. -/
def EditOp.isReplaceOp : EditOp → Bool
  | .replace _ _ => true
  | _ => false

/-- `o.op === 'insert'`. -/
def EditOp.isInsertOp : EditOp → Bool
  | .insert _ _ => true
  | _ => false

/-- The merge branch of phase 1 (`App.jsx` lines 665–685): dedup-sort the
indices ascending, skip if empty, compute the insertion point (the provided
`insertIndex` clamped to current bounds, else the smallest index), remove the
listed indices highest→lowest with a range check on the shrinking array,
re-clamp the insertion point and splice in the single normalized theme built
from the operation's own fields. -/
def applyMergeOp (arr : List Theme) (indices? : Option (List Int))
    (f : ThemeFields) (insertIndex? : Option Int) : List Theme :=
  let indices := List.insertionSort (· ≤ ·) (indices?.getD []).dedup
  if indices.isEmpty then arr
  else
    let insertIndex : Int :=
      match insertIndex? with
      | some k => clamp k 0 (arr.length : Int)
      | none => indices.headI
    let merged := normalizeTheme f "Merged Theme"
    let arr2 := indices.reverse.foldl eraseIfInRange arr
    let ii := clamp insertIndex 0 (arr2.length : Int)
    insertManyAt arr2 ii.toNat [merged]

/-- The split branch of phase 1 (`App.jsx` lines 687–706): skip when the
index is missing or out of range, build the normalized replacement themes
(skipping the whole operation when there are none), remove the original, and
splice the replacements in at the provided `insertIndex` clamped to the
post-removal bounds, else at the original index. -/
def applySplitOp (arr : List Theme) (index? : Option Int)
    (replacements? : Option (List ThemeFields)) (insertIndex? : Option Int) :
    List Theme :=
  match index? with
  | none => arr
  | some idx =>
    if 0 ≤ idx ∧ idx < (arr.length : Int) then
      let replacements :=
        (replacements?.getD []).mapIdx fun j t =>
          normalizeTheme t (s!"Split {j + 1}")
      if replacements.isEmpty then arr
      else
        let arr2 := arr.eraseIdx idx.toNat
        let insertIndex : Int :=
          match insertIndex? with
          | some k => clamp k 0 (arr2.length : Int)
          | none => idx
        insertManyAt arr2 insertIndex.toNat replacements
    else arr

/-- Phase 2, one delete operation (`App.jsx` lines 710–715): dedup this
operation's indices, sort them descending, and remove each in-range index
from the shrinking array. -/
def applyDeleteOp (arr : List Theme) (indices? : Option (List Int)) :
    List Theme :=
  let indices := List.insertionSort (· ≥ ·) (indices?.getD []).dedup
  indices.foldl eraseIfInRange arr

/-- Phase 3, one replace operation (`App.jsx` lines 718–728): skip when the
index is missing or out of the current bounds, else overwrite the slot
wholesale with the normalized theme. -/
def applyReplaceOp (arr : List Theme) (index? : Option Int)
    (theme : ThemeFields) : List Theme :=
  match index? with
  | none => arr
  | some i =>
    if 0 ≤ i ∧ i < (arr.length : Int) then
      arr.set i.toNat (normalizeTheme theme (s!"Theme {i.toNat + 1}"))
    else arr

/-- Phase 4, one insert operation (`App.jsx` lines 731–742): skip when the
index is missing, else clamp it to `[0, length]` and splice in the single
normalized theme. -/
def applyInsertOp (arr : List Theme) (index? : Option Int)
    (theme : ThemeFields) : List Theme :=
  match index? with
  | none => arr
  | some i =>
    let idx := (clamp i 0 (arr.length : Int)).toNat
    insertManyAt arr idx [normalizeTheme theme (s!"Theme {idx + 1}")]

/-- The body of the phase-1 `forEach`: merge and split operations act, any
other element is left for a later phase. -/
def mergeSplitStep (arr : List Theme) : EditOp → List Theme
  | .merge idxs f ii => applyMergeOp arr idxs f ii
  | .split i reps ii => applySplitOp arr i reps ii
  | _ => arr

/-- The body of the phase-2 `forEach`. -/
def deleteStep (arr : List Theme) : EditOp → List Theme
  | .delete idxs => applyDeleteOp arr idxs
  | _ => arr

/-- The body of the phase-3 `forEach`. -/
def replaceStep (arr : List Theme) : EditOp → List Theme
  | .replace i t => applyReplaceOp arr i t
  | _ => arr

/-- The body of the phase-4 `forEach`. -/
def insertStep (arr : List Theme) : EditOp → List Theme
  | .insert i t => applyInsertOp arr i t
  | _ => arr

/-- Apply a single operation according to its own kind (used to express the
"sequential execution in phase order" reading of the engine). -/
def applyOneOp (arr : List Theme) : EditOp → List Theme
  | .merge idxs f ii => applyMergeOp arr idxs f ii
  | .split i reps ii => applySplitOp arr i reps ii
  | .delete idxs => applyDeleteOp arr idxs
  | .replace i t => applyReplaceOp arr i t
  | .insert i t => applyInsertOp arr i t

/-- Phase 1: `ops.filter(o => o.op === 'merge' || o.op === 'split').forEach`. -/
def mergeSplitPhase (arr : List Theme) (ops : List EditOp) : List Theme :=
  (ops.filter EditOp.isMergeOrSplit).foldl mergeSplitStep arr

/-- Phase 2: `ops.filter(o => o.op === 'delete').forEach`. -/
def deletePhase (arr : List Theme) (ops : List EditOp) : List Theme :=
  (ops.filter EditOp.isDeleteOp).foldl deleteStep arr

/-- Phase 3: `ops.filter(o => o.op === 'replace').forEach`. -/
def replacePhase (arr : List Theme) (ops : List EditOp) : List Theme :=
  (ops.filter EditOp.isReplaceOp).foldl replaceStep arr

/-- Phase 4: `ops.filter(o => o.op === 'insert').forEach`. -/
def insertPhase (arr : List Theme) (ops : List EditOp) : List Theme :=
  (ops.filter EditOp.isInsertOp).foldl insertStep arr

/-- An untagged legacy patch: an index plus the optional theme fields to
overwrite. -/
structure LegacyPatch where
  index : Option Int
  fields : ThemeFields
deriving DecidableEq, Repr

/-- One legacy patch application for a given index (`applyLegacyPatches`
body, `App.jsx` lines 630–639): skip when the index is missing or out of
range, else rebuild the slot keeping each absent patch field from the
pre-existing theme.  (Stored themes always carry all four fields, so the
source's secondary fallbacks `?? 'Theme ...'` / `|| []` for a malformed
stored theme cannot fire.) -/
def applyLegacyPatchAt (copy : List Theme) (fl : ThemeFields) :
    Option Int → List Theme
  | none => copy
  | some i =>
    if h : 0 ≤ i ∧ i < (copy.length : Int) then
      let old := copy.get ⟨i.toNat, by omega⟩
      copy.set i.toNat
        { ThemeLabel := fl.ThemeLabel.getD old.ThemeLabel
          Definition := fl.Definition.getD old.Definition
          RepresentativeKeywords :=
            fl.RepresentativeKeywords.getD old.RepresentativeKeywords
          ParticipantID :=
            match fl.ParticipantID with
            | some l => l.map CellVal.toStr
            | none => old.ParticipantID }
    else copy

/-- One legacy patch application. -/
def applyLegacyPatch (copy : List Theme) (p : LegacyPatch) : List Theme :=
  applyLegacyPatchAt copy p.fields p.index

/-- `applyLegacyPatches(arr, patches)` from `App.jsx` (lines 628–641). -/
def applyLegacyPatches (arr : List Theme) (patches : List LegacyPatch) :
    List Theme :=
  patches.foldl applyLegacyPatch arr

/-- An element of an edit batch: either a tagged structured operation or an
untagged legacy patch (an object with no `op` field). -/
inductive Edit where
  | tagged (op : EditOp)
  | legacy (p : LegacyPatch)
deriving DecidableEq, Repr

/-- `!('op' in e)` — the element lacks the discriminant tag. -/
def Edit.isLegacy : Edit → Bool
  | .legacy _ => true
  | .tagged _ => false

/-- The structured operation carried by a batch element, if any. -/
def Edit.op? : Edit → Option EditOp
  | .tagged o => some o
  | .legacy _ => none

/-- The legacy patch carried by a batch element, if any. -/
def Edit.patch? : Edit → Option LegacyPatch
  | .legacy p => some p
  | .tagged _ => none

/-- The tagged operations of a batch, in batch order.  (In the source the
phase filters run over the whole `ops` array; elements with no `op` field
match none of the filters, so filtering the tagged ones out first is
equivalent.) -/
def taggedOps (edits : List Edit) : List EditOp := edits.filterMap Edit.op?

/-- The legacy patches of a batch, in batch order. -/
def legacyPatches (edits : List Edit) : List LegacyPatch :=
  edits.filterMap Edit.patch?

/-- `applyStructuredEdits(original, edits)` from `App.jsx` (lines 643–745):
empty batches return the input unchanged; a batch in which every element
lacks the `op` tag is dispatched to the legacy patch applier; otherwise the
four phases run in the fixed order merge/split, delete, replace, insert. -/
def applyStructuredEdits (original : List Theme) (edits : List Edit) :
    List Theme :=
  if edits.isEmpty then original
  else if edits.all Edit.isLegacy then
    applyLegacyPatches original (legacyPatches edits)
  else
    let ops := taggedOps edits
    insertPhase (replacePhase (deletePhase (mergeSplitPhase original ops) ops)
      ops) ops

/-! ### Specification-side definitions

The following definitions are written from the specification's wording (not
from the source) and are compared with the source-derived functions above in
the refinement theorems. -/

/-- Spec wording for removal by listed position: walk the array once and drop
every element whose (current) position is listed in `d`.  Out-of-range and
negative listed indices remove nothing. -/
def dropListed (arr : List α) (pos : Int) (d : List Int) : List α :=
  match arr with
  | [] => []
  | x :: xs =>
    if pos ∈ d then dropListed xs (pos + 1) d
    else x :: dropListed xs (pos + 1) d

/-- The smallest listed index (head of the ascending dedup-sort), used as the
merge insertion point when no `insertIndex` is provided. -/
def smallestListed (l : List Int) : Int :=
  (List.insertionSort (· ≤ ·) l.dedup).headI

/-- The merge operation as the specification words it: skip when the index
set is empty; otherwise determine the insertion point (`insertIndex` clamped
to current bounds if provided, else the smallest listed index), remove the
listed in-range indices, build one new theme from the operation's own fields
with missing fields defaulted, and insert it at the (re-clamped) insertion
point. -/
def mergeAsSpecified (arr : List Theme) (l : List Int) (f : ThemeFields)
    (insertIndex? : Option Int) : List Theme :=
  if l = [] then arr
  else
    let ip : Int :=
      match insertIndex? with
      | some k => clamp k 0 (arr.length : Int)
      | none => smallestListed l
    let arr2 := dropListed arr 0 l
    insertManyAt arr2 (clamp ip 0 (arr2.length : Int)).toNat
      [normalizeTheme f "Merged Theme"]

/-- The split operation as the specification words it for an in-range index:
remove the single theme at `idx`, build one replacement per element of
`reps` (each independently defaulted), and insert them as a contiguous block
at `insertIndex` clamped to the post-removal bounds when provided, else at
the original index. -/
def splitAsSpecified (arr : List Theme) (idx : Int) (reps : List ThemeFields)
    (insertIndex? : Option Int) : List Theme :=
  let arr2 := arr.eraseIdx idx.toNat
  let built := reps.mapIdx fun j t => normalizeTheme t (s!"Split {j + 1}")
  let pos : Int :=
    match insertIndex? with
    | some k => clamp k 0 (arr2.length : Int)
    | none => idx
  insertManyAt arr2 pos.toNat built

/-- A batch reordered into the fixed phase order: merge/split operations
first (in batch order), then delete, then replace, then insert. -/
def phaseOrdered (ops : List EditOp) : List EditOp :=
  ops.filter EditOp.isMergeOrSplit ++ ops.filter EditOp.isDeleteOp ++
    ops.filter EditOp.isReplaceOp ++ ops.filter EditOp.isInsertOp

/-- Sequential execution: apply the operations one at a time, each according
to its own kind, against the array as it stands when the operation runs. -/
def executeOpsInOrder (arr : List Theme) (ops : List EditOp) : List Theme :=
  ops.foldl applyOneOp arr

/-! ### Lenient result parser (`parseJsonMaybe`, `App.jsx` lines 112–148)

The wrapper logic is embedded exactly; the `JSON.parse` builtin it calls is
modelled by an executable recursive-descent parser `jsonParse` of the JSON
grammar (numbers in exact rational arithmetic).  -/

/-- A parsed JSON value. -/
inductive Json where
  | null
  | bool (b : Bool)
  | num (q : ℚ)
  | str (s : String)
  | arr (elems : List Json)
  | obj (members : List (String × Json))

/-- The left-brace character, written by code point. -/
def lbraceChar : Char := Char.ofNat 123

/-- The right-brace character, written by code point. -/
def rbraceChar : Char := Char.ofNat 125

/-- The backtick character, written by code point. -/
def btickChar : Char := Char.ofNat 96

/-- JSON insignificant whitespace (space, tab, line feed, carriage return). -/
def isJsonWs (c : Char) : Bool :=
  c = ' ' || c = '\t' || c = '\n' || c = '\r'

/-- Skip insignificant whitespace. -/
def skipJsonWs (cs : List Char) : List Char := cs.dropWhile isJsonWs

/-- Whitespace for the JS `String.prototype.trim` (ASCII whitespace forms
plus no-break space; exotic Unicode spaces are outside the model). -/
def isJsTrimWs (c : Char) : Bool :=
  c = ' ' || c = '\t' || c = '\n' || c = '\r' ||
  c = Char.ofNat 11 || c = Char.ofNat 12 || c = Char.ofNat 160

/-- `s.trim()` on a character list. -/
def jsTrimList (cs : List Char) : List Char :=
  ((cs.dropWhile isJsTrimWs).reverse.dropWhile isJsTrimWs).reverse

/-- `s.trim()`. -/
def jsTrim (s : String) : String := String.mk (jsTrimList s.toList)

/-- Value of a hexadecimal digit, if the character is one. -/
def hexVal? (c : Char) : Option Nat :=
  if '0' ≤ c ∧ c ≤ '9' then some (c.toNat - '0'.toNat)
  else if 'a' ≤ c ∧ c ≤ 'f' then some (c.toNat - 'a'.toNat + 10)
  else if 'A' ≤ c ∧ c ≤ 'F' then some (c.toNat - 'A'.toNat + 10)
  else none

/-- Parse the body of a JSON string literal (after the opening quote),
returning the decoded characters and the input following the closing quote.
Handles the JSON escapes including `\uXXXX`; raw control characters are
rejected as `JSON.parse` does. -/
def parseStringBody : List Char → Option (List Char × List Char)
  | [] => none
  | c :: rest =>
    if c = '"' then some ([], rest)
    else if c = '\\' then
      match rest with
      | [] => none
      | e :: rest2 =>
        if e = '"' ∨ e = '\\' ∨ e = '/' then
          (parseStringBody rest2).map fun p => (e :: p.1, p.2)
        else if e = 'b' then
          (parseStringBody rest2).map fun p => (Char.ofNat 8 :: p.1, p.2)
        else if e = 'f' then
          (parseStringBody rest2).map fun p => (Char.ofNat 12 :: p.1, p.2)
        else if e = 'n' then
          (parseStringBody rest2).map fun p => ('\n' :: p.1, p.2)
        else if e = 'r' then
          (parseStringBody rest2).map fun p => ('\r' :: p.1, p.2)
        else if e = 't' then
          (parseStringBody rest2).map fun p => ('\t' :: p.1, p.2)
        else if e = 'u' then
          match rest2 with
          | h1 :: h2 :: h3 :: h4 :: rest3 =>
            match hexVal? h1, hexVal? h2, hexVal? h3, hexVal? h4 with
            | some a, some b, some c3, some d =>
              (parseStringBody rest3).map fun p =>
                (Char.ofNat (((a * 16 + b) * 16 + c3) * 16 + d) :: p.1, p.2)
            | _, _, _, _ => none
          | _ => none
        else none
    else if c.toNat < 32 then none
    else (parseStringBody rest).map fun p => (c :: p.1, p.2)

/-- Take a maximal run of decimal digits, as digit values. -/
def takeDigits : List Char → List Nat × List Char
  | [] => ([], [])
  | c :: cs =>
    if '0' ≤ c ∧ c ≤ '9' then
      let p := takeDigits cs
      ((c.toNat - '0'.toNat) :: p.1, p.2)
    else ([], c :: cs)

/-- Digit list to natural number. -/
def digitsToNat (ds : List Nat) : Nat := ds.foldl (fun a d => a * 10 + d) 0

/-- Parse an optional JSON fraction part (`.` followed by at least one
digit). -/
def parseFrac : List Char → Option (List Nat × List Char)
  | '.' :: t =>
    let p := takeDigits t
    if p.1.isEmpty then none else some p
  | cs => some ([], cs)

/-- Parse an optional JSON exponent part. -/
def parseExp : List Char → Option (Int × List Char)
  | [] => some (0, [])
  | c :: t =>
    if c = 'e' ∨ c = 'E' then
      let sgn : Bool × List Char :=
        match t with
        | '+' :: u => (false, u)
        | '-' :: u => (true, u)
        | _ => (false, t)
      let p := takeDigits sgn.2
      if p.1.isEmpty then none
      else
        some ((if sgn.1 then -(digitsToNat p.1 : Int) else (digitsToNat p.1 : Int)),
          p.2)
    else some (0, c :: t)

/-- The rational value of a JSON number literal.  (The integer case is
returned directly; the general formula reduces to it when there are no
fraction digits and the exponent is zero.) -/
def mkJsonNum (neg : Bool) (ip : Nat) (fds : List Nat) (ex : Int) : ℚ :=
  if fds.isEmpty ∧ ex = 0 then if neg then -(ip : ℚ) else (ip : ℚ)
  else
    let base : ℚ := (ip : ℚ) + (digitsToNat fds : ℚ) / (10 : ℚ) ^ fds.length
    (if neg then -base else base) * (10 : ℚ) ^ ex

/-- Parse a JSON number literal (grammar `-? int frac? exp?`, leading zeros
rejected). -/
def parseNumber (cs : List Char) : Option (ℚ × List Char) :=
  let sp : Bool × List Char :=
    match cs with
    | '-' :: t => (true, t)
    | _ => (false, cs)
  match sp.2 with
  | [] => none
  | c :: t =>
    let ipRes : Option (Nat × List Char) :=
      if c = '0' then
        match t with
        | d :: _ => if '0' ≤ d ∧ d ≤ '9' then none else some (0, t)
        | [] => some (0, [])
      else if '1' ≤ c ∧ c ≤ '9' then
        let p := takeDigits t
        some (digitsToNat ((c.toNat - '0'.toNat) :: p.1), p.2)
      else none
    match ipRes with
    | none => none
    | some (ip, cs2) =>
      match parseFrac cs2 with
      | none => none
      | some (fds, cs3) =>
        match parseExp cs3 with
        | none => none
        | some (ex, cs4) => some (mkJsonNum sp.1 ip fds ex, cs4)

mutual

/-- Parse one JSON value (fuel-indexed recursive descent). -/
def parseValue : Nat → List Char → Option (Json × List Char)
  | 0, _ => none
  | fuel + 1, cs =>
    match skipJsonWs cs with
    | [] => none
    | c :: rest =>
      if c = '"' then
        (parseStringBody rest).map fun p => (Json.str (String.mk p.1), p.2)
      else if c = '[' then
        match skipJsonWs rest with
        | ']' :: r2 => some (Json.arr [], r2)
        | r2 => (parseElems fuel r2).map fun p => (Json.arr p.1, p.2)
      else if c = lbraceChar then
        match skipJsonWs rest with
        | [] => none
        | d :: r3 =>
          if d = rbraceChar then some (Json.obj [], r3)
          else (parseMembers fuel (d :: r3)).map fun p => (Json.obj p.1, p.2)
      else if c = 't' then
        match rest with
        | 'r' :: 'u' :: 'e' :: r => some (Json.bool true, r)
        | _ => none
      else if c = 'f' then
        match rest with
        | 'a' :: 'l' :: 's' :: 'e' :: r => some (Json.bool false, r)
        | _ => none
      else if c = 'n' then
        match rest with
        | 'u' :: 'l' :: 'l' :: r => some (Json.null, r)
        | _ => none
      else if c = '-' ∨ ('0' ≤ c ∧ c ≤ '9') then
        (parseNumber (c :: rest)).map fun p => (Json.num p.1, p.2)
      else none

/-- Parse the elements of a non-empty JSON array up to the closing bracket. -/
def parseElems : Nat → List Char → Option (List Json × List Char)
  | 0, _ => none
  | fuel + 1, cs =>
    match parseValue fuel cs with
    | none => none
    | some (v, r) =>
      match skipJsonWs r with
      | ',' :: r2 => (parseElems fuel r2).map fun p => (v :: p.1, p.2)
      | ']' :: r2 => some ([v], r2)
      | _ => none

/-- Parse the members of a non-empty JSON object up to the closing brace. -/
def parseMembers : Nat → List Char → Option (List (String × Json) × List Char)
  | 0, _ => none
  | fuel + 1, cs =>
    match skipJsonWs cs with
    | '"' :: r =>
      match parseStringBody r with
      | none => none
      | some (k, r2) =>
        match skipJsonWs r2 with
        | ':' :: r3 =>
          match parseValue fuel r3 with
          | none => none
          | some (v, r4) =>
            match skipJsonWs r4 with
            | [] => none
            | d :: r5 =>
              if d = ',' then
                (parseMembers fuel r5).map fun p =>
                  ((String.mk k, v) :: p.1, p.2)
              else if d = rbraceChar then some ([(String.mk k, v)], r5)
              else none
        | _ => none
    | _ => none

end

/-- The `JSON.parse` model: parse one value and require only whitespace to
remain. -/
def jsonParse (s : String) : Option Json :=
  let cs := s.toList
  match parseValue (2 * cs.length + 2) cs with
  | some (v, rest) => if (skipJsonWs rest).isEmpty then some v else none
  | none => none

/-- The code-fence stripping step of `parseJsonMaybe`: when the trimmed text
starts with three backticks, drop the leading backtick run, trim, drop a
leading case-insensitive `json` language tag, trim, drop a trailing backtick
run of three or more, and trim. -/
def stripFences (cs : List Char) : List Char :=
  match cs with
  | a :: b :: c :: _ =>
    if a = btickChar ∧ b = btickChar ∧ c = btickChar then
      let t1 := jsTrimList (cs.dropWhile (· = btickChar))
      let t2 := jsTrimList
        (if (t1.take 4).map Char.toLower = ['j', 's', 'o', 'n'] then t1.drop 4
         else t1)
      let r := t2.reverse
      match r with
      | x :: y :: z :: _ =>
        if x = btickChar ∧ y = btickChar ∧ z = btickChar then
          jsTrimList (r.dropWhile (· = btickChar)).reverse
        else t2
      | _ => t2
    else cs
  | _ => cs

/-- Index of the first occurrence of `c` (JS `indexOf`, `none` for −1). -/
def firstIdxOf (cs : List Char) (c : Char) : Option Nat := cs.indexOf? c

/-- Index of the last occurrence of `c` (JS `lastIndexOf`, `none` for −1). -/
def lastIdxOf (cs : List Char) (c : Char) : Option Nat :=
  match cs.reverse.indexOf? c with
  | some k => some (cs.length - 1 - k)
  | none => none

/-- `t.slice(i, j + 1)`: the characters from position `i` through `j`. -/
def sliceIncl (cs : List Char) (i j : Nat) : List Char :=
  (cs.drop i).take (j + 1 - i)

/-- Recovery attempt 3: parse the substring from the first `[` to the last
`]` (requiring the former to precede the latter). -/
def attemptArraySlice (t : List Char) : Option Json :=
  match firstIdxOf t '[', lastIdxOf t ']' with
  | some i, some j =>
    if i < j then jsonParse (String.mk (sliceIncl t i j)) else none
  | _, _ => none

/-- Recovery attempt 4: parse the substring from the first opening brace to
the last closing brace. -/
def attemptObjSlice (t : List Char) : Option Json :=
  match firstIdxOf t lbraceChar, lastIdxOf t rbraceChar with
  | some i, some j =>
    if i < j then jsonParse (String.mk (sliceIncl t i j)) else none
  | _, _ => none

/-- Trimming plus fence stripping — the text actually fed to the parse
attempts. -/
def preprocessText (text : String) : String :=
  String.mk (stripFences (jsTrimList text.toList))

/-- `parseJsonMaybe(text)` from `App.jsx` (lines 112–148) for a string
argument: `none` models the thrown `JSON parse failed` error. -/
def parseJsonMaybe (text : String) : Option Json :=
  let t := preprocessText text
  match jsonParse t with
  | some v => some v
  | none =>
    match attemptArraySlice t.toList with
    | some v => some v
    | none => attemptObjSlice t.toList

/-! ### Coverage percentage (`App.jsx` lines 73–84, 150–162, 1119–1164)

A CSV row is modelled by its two cells the computation reads: the value in
the id column and the value in the question column (`none` for a missing or
`null` cell, which the source's `??` guards replace by defaults). -/

/-- An ASCII alphanumeric character (the class kept by
`normalizePlaceholder`'s regex). -/
def isAlnumAscii (c : Char) : Bool :=
  ('0' ≤ c && c ≤ '9') || ('a' ≤ c && c ≤ 'z') || ('A' ≤ c && c ≤ 'Z')

/-- Collapse runs of adjacent spaces to a single space (together with the
character map below this realises `replace(/[^0-9A-Za-z]+/g, ' ')`). -/
def collapseSpaceRuns : List Char → List Char
  | [] => []
  | [c] => [c]
  | a :: b :: rest =>
    if a = ' ' && b = ' ' then collapseSpaceRuns (b :: rest)
    else a :: collapseSpaceRuns (b :: rest)

/-- `normalizePlaceholder(s)`: non-alphanumeric runs become one space, then
trim and lowercase. -/
def normalizePlaceholder (s : String) : String :=
  let mapped := s.toList.map fun c => if isAlnumAscii c then c else ' '
  String.mk ((jsTrimList (collapseSpaceRuns mapped)).map Char.toLower)

/-- The placeholder answers excluded from the respondent universe. -/
def PLACEHOLDERS : List String :=
  ["", " ", "na", "n a", "n/a", "none", "no response", "no comment", "nil",
   ".", "-", "--"]

/-- `isMeaningful(text)` with the default 3-character minimum. -/
def isMeaningful (text : String) : Bool :=
  let s := jsTrim text
  if s.length < 3 then false
  else !(PLACEHOLDERS.contains (normalizePlaceholder s))

/-- A CSV row restricted to the two cells the coverage computation reads. -/
structure Row where
  idVal : Option CellVal
  ansVal : Option CellVal
deriving DecidableEq, Repr

/-- `String(rows[i]?.[idCol] ?? (i + 1))` for the 0-based row position `i`. -/
def rowIdStr (r : Row) (i : Nat) : String :=
  match r.idVal with
  | some v => v.toStr
  | none => toString (i + 1)

/-- `String(raw ?? '').replace(/\n/g, ' ').trim()` for the answer cell. -/
def rowAnswerTxt (r : Row) : String :=
  let raw := match r.ansVal with | some v => v.toStr | none => ""
  jsTrim (String.mk (raw.toList.map fun c => if c = '\n' then ' ' else c))

/-- The ids added to the universe set, in row order (with duplicates). -/
def universeIdsAux : List Row → Nat → Bool → List String
  | [], _, _ => []
  | r :: rs, i, skipBlanks =>
    let rid := rowIdStr r i
    let txt := rowAnswerTxt r
    let keep := if skipBlanks then isMeaningful txt else !(txt == "")
    (if keep then [rid] else []) ++ universeIdsAux rs (i + 1) skipBlanks

/-- `computeQuestionUniverse(rows, idCol, qcol, skipBlanks)` as the list of
distinct included ids (its length is the JS set's `.size`). -/
def computeQuestionUniverse (rows : List Row) (skipBlanks : Bool) :
    List String :=
  (universeIdsAux rows 0 skipBlanks).dedup

/-- The fallback union of ids assigned across all of a question's themes
(each theme given by its raw `ParticipantID` list): ids are string-coerced
and `null` / empty-string values are excluded, as in the source's
`id != null && String(id) !== ''` guard. -/
def unionAssignedIds (themes : List (List CellVal)) : List String :=
  ((themes.map fun pids =>
      (pids.map CellVal.toStr).filter fun s => s ≠ "").flatten).dedup

/-- `denom`: the universe size, or the union size when the universe is
empty. -/
def coverageDenom (rows : List Row) (skipBlanks : Bool)
    (themes : List (List CellVal)) : Nat :=
  let u := (computeQuestionUniverse rows skipBlanks).length
  if u > 0 then u else (unionAssignedIds themes).length

/-- `safeDenom`: `denom` floored at 1. -/
def safeDenom (rows : List Row) (skipBlanks : Bool)
    (themes : List (List CellVal)) : Nat :=
  let d := coverageDenom rows skipBlanks themes
  if d > 0 then d else 1

/-- `new Set(idsArr.map(String)).size` for one displayed theme. -/
def themeIdCount (pids : List CellVal) : Nat :=
  ((pids.map CellVal.toStr).dedup).length

/-- The displayed badge value
`Math.round((themeCount / safeDenom) * 1000) / 10`, in exact rational
arithmetic. -/
def themePct (rows : List Row) (skipBlanks : Bool)
    (themes : List (List CellVal)) (pids : List CellVal) : ℚ :=
  (round (((themeIdCount pids : ℚ) / (safeDenom rows skipBlanks themes : ℚ))
    * 1000) : ℤ) / 10

/-! ### Concrete sample data used by witnesses and counterexamples -/

/-- Sample theme A. -/
def tA : Theme := ⟨"A", "defA", ["a"], ["1"]⟩

/-- Sample theme B. -/
def tB : Theme := ⟨"B", "defB", ["b"], ["2"]⟩

/-- Sample theme C. -/
def tC : Theme := ⟨"C", "defC", ["c"], ["3"]⟩

/-- Fields of a sample merged theme M. -/
def fM : ThemeFields :=
  ⟨some "M", some "merged def", some ["m"], some [.str "1", .str "3"]⟩

/-- The normalized merged theme built from `fM`. -/
def tM : Theme := normalizeTheme fM "Merged Theme"

/-- Fields of a sample replacement theme X. -/
def fX : ThemeFields := ⟨some "X", some "defX", some ["x"], some [.str "2"]⟩

/-- Fields of a sample replacement theme Y. -/
def fY : ThemeFields := ⟨some "Y", some "defY", some ["y"], some [.str "9"]⟩

/-- Ten sample rows with distinct ids and meaningful answers. -/
def sampleRows : List Row :=
  (List.range 10).map fun i =>
    ⟨some (.str (s!"r{i + 1}")), some (.str "a meaningful answer")⟩

/-- A sample participant-id list with three distinct ids. -/
def pids3 : List CellVal := [.str "r1", .str "r2", .str "r3"]

/-- A sample batch: an insert written before a delete. -/
def c1edits : List Edit :=
  [.tagged (.insert (some 0) fX), .tagged (.delete (some [0]))]

/-- The same operations with the delete written first. -/
def c1edits' : List Edit :=
  [.tagged (.delete (some [0])), .tagged (.insert (some 0) fX)]

/-! ### Helper lemmas -/

theorem dropListed_nil_d (arr : List α) (p : Int) : dropListed arr p [] = arr := by
  induction arr generalizing p with
  | nil => rfl
  | cons x xs ih => simp [dropListed, ih]

theorem dropListed_of_lt (xs : List α) (p : Int) (d : List Int)
    (h : ∀ j ∈ d, j < p) : dropListed xs p d = xs := by
  induction xs generalizing p with
  | nil => rfl
  | cons x t ih =>
    have hp : p ∉ d := fun hmem => absurd (h p hmem) (lt_irrefl p)
    simp only [dropListed, if_neg hp]
    rw [ih (p + 1) (fun j hj => lt_trans (h j hj) (by omega))]

theorem dropListed_cons_notHit (xs : List α) (p i : Int) (d : List Int)
    (h : ∀ q : Int, p ≤ q → q < p + xs.length → q ≠ i) :
    dropListed xs p (i :: d) = dropListed xs p d := by
  induction xs generalizing p with
  | nil => rfl
  | cons x t ih =>
    have hpi : p ≠ i := h p le_rfl (by
      simp only [List.length_cons]
      push_cast
      omega)
    have hmem : (p ∈ i :: d) = (p ∈ d) := by
      simp only [List.mem_cons, eq_iff_iff]
      constructor
      · rintro (hh | hh)
        · exact absurd hh hpi
        · exact hh
      · exact Or.inr
    have ih' := ih (p + 1) (fun q hq1 hq2 => h q (by omega) (by
      simp only [List.length_cons] at *
      push_cast at hq2 ⊢
      omega))
    simp only [dropListed, hmem, ih']

theorem dropListed_cons_erase (xs : List α) (i : Int) (d : List Int)
    (hd : ∀ j ∈ d, j < i) :
    ∀ p : Int, p ≤ i → (i - p).toNat < xs.length →
      dropListed xs p (i :: d) = dropListed (xs.eraseIdx (i - p).toNat) p d := by
  induction xs with
  | nil => intro p _ hlen; simp at hlen
  | cons x t ih =>
    intro p hpi hlen
    by_cases hip : i = p
    · subst hip
      have h1 : (i - i).toNat = 0 := by omega
      rw [h1]
      simp only [List.eraseIdx]
      have hmem : i ∈ i :: d := List.mem_cons_self i d
      simp only [dropListed, if_pos hmem]
      rw [dropListed_of_lt t (i + 1) (i :: d) ?_, dropListed_of_lt t i d hd]
      intro j hj
      rcases List.mem_cons.mp hj with hh | hh
      · omega
      · have := hd j hh; omega
    · have hpi' : p < i := lt_of_le_of_ne hpi fun hh => hip hh.symm
      have hpne : p ≠ i := by omega
      have hpmem : (p ∈ i :: d) = (p ∈ d) := by
        simp only [List.mem_cons, eq_iff_iff]
        constructor
        · rintro (hh | hh)
          · exact absurd hh hpne
          · exact hh
        · exact Or.inr
      have hsucc : (i - p).toNat = (i - (p + 1)).toNat + 1 := by omega
      rw [hsucc]
      simp only [List.eraseIdx]
      have hlen' : (i - (p + 1)).toNat < t.length := by
        simp only [List.length_cons] at hlen
        omega
      have hstep := ih (p + 1) (by omega) hlen'
      simp only [dropListed, hpmem, hstep]

theorem foldl_erase_id (arr : List α) (d : List Int)
    (h : ∀ i ∈ d, ¬(0 ≤ i ∧ i < (arr.length : Int))) :
    d.foldl eraseIfInRange arr = arr := by
  induction d with
  | nil => rfl
  | cons i rest ih =>
    have h1 : eraseIfInRange arr i = arr := by
      unfold eraseIfInRange
      exact if_neg (h i (List.mem_cons_self i rest))
    simp only [List.foldl_cons, h1]
    exact ih fun j hj => h j (List.mem_cons_of_mem i hj)

theorem foldl_erase_eq_dropListed (arr : List α) (d : List Int)
    (hd : d.Pairwise (· > ·)) :
    d.foldl eraseIfInRange arr = dropListed arr 0 d := by
  induction d generalizing arr with
  | nil => simp [dropListed_nil_d]
  | cons i rest ih =>
    have hlt : ∀ j ∈ rest, j < i := (List.pairwise_cons.mp hd).1
    have hrest := (List.pairwise_cons.mp hd).2
    simp only [List.foldl_cons]
    by_cases hir : 0 ≤ i ∧ i < (arr.length : Int)
    · have h1 : eraseIfInRange arr i = arr.eraseIdx i.toNat := by
        unfold eraseIfInRange
        exact if_pos hir
      have h2 := dropListed_cons_erase arr i rest hlt 0 (by omega)
        (by omega : (i - 0).toNat < arr.length)
      rw [sub_zero] at h2
      rw [h1, ih _ hrest]
      exact h2.symm
    · have h1 : eraseIfInRange arr i = arr := by
        unfold eraseIfInRange
        exact if_neg hir
      have h3 : dropListed arr 0 (i :: rest) = dropListed arr 0 rest := by
        apply dropListed_cons_notHit
        intro q hq1 hq2
        push_cast at hq2
        omega
      rw [h1, ih _ hrest, ← h3]

theorem dropListed_congr (arr : List α) (p : Int) (d d' : List Int)
    (h : ∀ q : Int, q ∈ d ↔ q ∈ d') :
    dropListed arr p d = dropListed arr p d' := by
  induction arr generalizing p with
  | nil => rfl
  | cons x t ih =>
    simp only [dropListed]
    by_cases hp : p ∈ d
    · rw [if_pos hp, if_pos ((h p).mp hp), ih]
    · rw [if_neg hp, if_neg fun hh => hp ((h p).mpr hh), ih]

theorem foldl_congr_mem {f g : β → α → β} (l : List α) (b : β)
    (h : ∀ acc, ∀ o ∈ l, f acc o = g acc o) : l.foldl f b = l.foldl g b := by
  induction l generalizing b with
  | nil => rfl
  | cons x t ih =>
    simp only [List.foldl_cons]
    rw [h b x (List.mem_cons_self x t)]
    exact ih _ fun acc o ho => h acc o (List.mem_cons_of_mem x ho)

theorem mem_sortAscDedup (l : List Int) (a : Int) :
    a ∈ List.insertionSort (· ≤ ·) l.dedup ↔ a ∈ l := by
  rw [(List.perm_insertionSort _ _).mem_iff, List.mem_dedup]

theorem mem_sortDescDedup (l : List Int) (a : Int) :
    a ∈ List.insertionSort (· ≥ ·) l.dedup ↔ a ∈ l := by
  rw [(List.perm_insertionSort _ _).mem_iff, List.mem_dedup]

theorem sortAscDedup_pairwise (l : List Int) :
    (List.insertionSort (· ≤ ·) l.dedup).Pairwise (· < ·) := by
  have hs : (List.insertionSort (· ≤ ·) l.dedup).Pairwise (· ≤ ·) :=
    List.sorted_insertionSort _ _
  have hn : (List.insertionSort (· ≤ ·) l.dedup).Pairwise (· ≠ ·) :=
    (List.perm_insertionSort _ _).nodup_iff.mpr l.nodup_dedup
  exact (hs.and hn).imp fun hab => lt_of_le_of_ne hab.1 hab.2

theorem sortDescDedup_pairwise (l : List Int) :
    (List.insertionSort (· ≥ ·) l.dedup).Pairwise (· > ·) := by
  have hs : (List.insertionSort (· ≥ ·) l.dedup).Pairwise (· ≥ ·) :=
    List.sorted_insertionSort _ _
  have hn : (List.insertionSort (· ≥ ·) l.dedup).Pairwise (· ≠ ·) :=
    (List.perm_insertionSort _ _).nodup_iff.mpr l.nodup_dedup
  exact (hs.and hn).imp fun hab => lt_of_le_of_ne hab.1 hab.2.symm

theorem sortAscDedup_eq_nil (l : List Int) :
    List.insertionSort (· ≤ ·) l.dedup = [] ↔ l = [] := by
  constructor
  · intro h
    have := (List.perm_insertionSort (· ≤ ·) l.dedup).symm
    rw [h] at this
    exact (List.dedup_eq_nil l).mp this.eq_nil
  · intro h
    subst h
    rfl

theorem sortAscDedup_isEmpty_false (l : List Int) (hl : l ≠ []) :
    (List.insertionSort (· ≤ ·) l.dedup).isEmpty = false := by
  cases hsort : List.insertionSort (· ≤ ·) l.dedup with
  | nil => exact absurd ((sortAscDedup_eq_nil l).mp hsort) hl
  | cons a t => rfl

theorem smallestListed_spec (l : List Int) (h : l ≠ []) :
    smallestListed l ∈ l ∧ ∀ j ∈ l, smallestListed l ≤ j := by
  unfold smallestListed
  have hperm : List.Perm (List.insertionSort (· ≤ ·) l.dedup) l.dedup :=
    List.perm_insertionSort _ _
  have hsorted : (List.insertionSort (· ≤ ·) l.dedup).Pairwise (· ≤ ·) :=
    List.sorted_insertionSort _ _
  have hsne : List.insertionSort (· ≤ ·) l.dedup ≠ [] := by
    intro hnil
    exact absurd ((sortAscDedup_eq_nil l).mp hnil) h
  obtain ⟨a, t, hat⟩ := List.exists_cons_of_ne_nil hsne
  rw [hat] at hperm hsorted ⊢
  simp only [List.headI]
  constructor
  · exact List.mem_dedup.mp (hperm.mem_iff.mp (List.mem_cons_self a t))
  · intro j hj
    have hjs : j ∈ a :: t := hperm.mem_iff.mpr (List.mem_dedup.mpr hj)
    rcases List.mem_cons.mp hjs with hh | hh
    · omega
    · exact (List.pairwise_cons.mp hsorted).1 j hh

theorem applyMergeOp_eq_spec (arr : List Theme) (l : List Int)
    (f : ThemeFields) (ii? : Option Int) :
    applyMergeOp arr (some l) f ii? = mergeAsSpecified arr l f ii? := by
  have hrem : (List.insertionSort (· ≤ ·) l.dedup).reverse.foldl eraseIfInRange
      arr = dropListed arr 0 l := by
    rw [foldl_erase_eq_dropListed]
    · exact dropListed_congr arr 0 _ l fun q => by
        rw [List.mem_reverse, mem_sortAscDedup]
    · rw [List.pairwise_reverse]
      exact sortAscDedup_pairwise l
  by_cases hl : l = []
  · subst hl
    rfl
  · have hne := sortAscDedup_isEmpty_false l hl
    unfold applyMergeOp mergeAsSpecified
    simp only [Option.getD_some, hne, Bool.false_eq_true, if_false, if_neg hl,
      hrem]
    cases ii? with
    | none => rfl
    | some k => rfl

theorem applyDeleteOp_eq_dropListed (arr : List Theme) (l : List Int) :
    applyDeleteOp arr (some l) = dropListed arr 0 l := by
  unfold applyDeleteOp
  simp only [Option.getD_some]
  rw [foldl_erase_eq_dropListed _ _ (sortDescDedup_pairwise l)]
  exact dropListed_congr arr 0 _ l fun q => mem_sortDescDedup l q

theorem mergeSplitPhase_eq_applyOne (arr : List Theme) (ops : List EditOp) :
    mergeSplitPhase arr ops =
      (ops.filter EditOp.isMergeOrSplit).foldl applyOneOp arr := by
  apply foldl_congr_mem
  intro acc o ho
  have hk := (List.mem_filter.mp ho).2
  cases o with
  | merge a b c => rfl
  | split a b c => rfl
  | replace a b => simp [EditOp.isMergeOrSplit] at hk
  | delete a => simp [EditOp.isMergeOrSplit] at hk
  | insert a b => simp [EditOp.isMergeOrSplit] at hk

theorem deletePhase_eq_applyOne (arr : List Theme) (ops : List EditOp) :
    deletePhase arr ops = (ops.filter EditOp.isDeleteOp).foldl applyOneOp arr := by
  apply foldl_congr_mem
  intro acc o ho
  have hk := (List.mem_filter.mp ho).2
  cases o with
  | merge a b c => simp [EditOp.isDeleteOp] at hk
  | split a b c => simp [EditOp.isDeleteOp] at hk
  | replace a b => simp [EditOp.isDeleteOp] at hk
  | delete a => rfl
  | insert a b => simp [EditOp.isDeleteOp] at hk

theorem replacePhase_eq_applyOne (arr : List Theme) (ops : List EditOp) :
    replacePhase arr ops =
      (ops.filter EditOp.isReplaceOp).foldl applyOneOp arr := by
  apply foldl_congr_mem
  intro acc o ho
  have hk := (List.mem_filter.mp ho).2
  cases o with
  | merge a b c => simp [EditOp.isReplaceOp] at hk
  | split a b c => simp [EditOp.isReplaceOp] at hk
  | replace a b => rfl
  | delete a => simp [EditOp.isReplaceOp] at hk
  | insert a b => simp [EditOp.isReplaceOp] at hk

theorem insertPhase_eq_applyOne (arr : List Theme) (ops : List EditOp) :
    insertPhase arr ops = (ops.filter EditOp.isInsertOp).foldl applyOneOp arr := by
  apply foldl_congr_mem
  intro acc o ho
  have hk := (List.mem_filter.mp ho).2
  cases o with
  | merge a b c => simp [EditOp.isInsertOp] at hk
  | split a b c => simp [EditOp.isInsertOp] at hk
  | replace a b => simp [EditOp.isInsertOp] at hk
  | delete a => simp [EditOp.isInsertOp] at hk
  | insert a b => rfl

theorem structured_phases (original : List Theme) (edits : List Edit)
    (h1 : edits.isEmpty = false) (h2 : edits.all Edit.isLegacy = false) :
    applyStructuredEdits original edits =
      executeOpsInOrder original (phaseOrdered (taggedOps edits)) := by
  unfold applyStructuredEdits executeOpsInOrder phaseOrdered
  simp only [h1, h2, Bool.false_eq_true, if_false]
  rw [List.foldl_append, List.foldl_append, List.foldl_append]
  rw [← mergeSplitPhase_eq_applyOne, ← deletePhase_eq_applyOne,
    ← replacePhase_eq_applyOne, ← insertPhase_eq_applyOne]

theorem insertManyAt_length_singleton (arr : List α) (n : Nat) (x : α)
    (h : n ≤ arr.length) :
    (insertManyAt arr n [x]).length = arr.length + 1 := by
  simp only [insertManyAt, List.length_append, List.length_take,
    List.length_cons, List.length_nil, List.length_drop]
  rw [Nat.min_eq_left h]
  omega

theorem insertManyAt_singleton_clamp (arr : List α) (x : α) (k : Int) :
    (insertManyAt arr (clamp k 0 (arr.length : Int)).toNat [x]).length
      = arr.length + 1
    ∧ ∃ n ≤ arr.length, insertManyAt arr (clamp k 0 (arr.length : Int)).toNat
        [x] = arr.take n ++ x :: arr.drop n := by
  have h1 : clamp k 0 (arr.length : Int) ≤ (arr.length : Int) :=
    max_le (Int.natCast_nonneg _) (min_le_left _ _)
  have hb : (clamp k 0 (arr.length : Int)).toNat ≤ arr.length :=
    Int.toNat_le.mpr h1
  refine ⟨insertManyAt_length_singleton arr _ x hb, ⟨_, hb, ?_⟩⟩
  simp [insertManyAt]

theorem all_isLegacy_map (ps : List LegacyPatch) :
    ((ps.map Edit.legacy).all Edit.isLegacy) = true := by
  induction ps with
  | nil => rfl
  | cons p pt ih =>
    simp only [List.map_cons, List.all_cons, ih, Edit.isLegacy,
      Bool.true_and]

theorem legacyPatches_map (ps : List LegacyPatch) :
    legacyPatches (ps.map Edit.legacy) = ps := by
  induction ps with
  | nil => rfl
  | cons p pt ih =>
    unfold legacyPatches at ih ⊢
    rw [List.map_cons,
      List.filterMap_cons_some (rfl : Edit.patch? (Edit.legacy p) = some p),
      ih]

/-! ### Claim theorems -/

/-- C1: for every theme list and every tagged edit batch,
`applyStructuredEdits` produces the same result as executing the batch's
operations one at a time in the fixed phase order — merge/split first, then
delete, then replace, then insert — with the index of every later operation
interpreted against the array as it stands when that operation runs (in
particular against the array produced by phase 1, not the original array);
consequently the result does not depend on the order in which the
operations appear in the batch, as long as the per-phase subsequences are
the same. -/
theorem c1_phase_order_and_order_invariance (original : List Theme)
    (edits edits' : List Edit)
    (h1 : edits.isEmpty = false) (h2 : edits.all Edit.isLegacy = false)
    (h1' : edits'.isEmpty = false) (h2' : edits'.all Edit.isLegacy = false)
    (horder : phaseOrdered (taggedOps edits') = phaseOrdered (taggedOps edits)) :
    applyStructuredEdits original edits =
      executeOpsInOrder original (phaseOrdered (taggedOps edits))
    ∧ applyStructuredEdits original edits' = applyStructuredEdits original edits := by
  refine ⟨structured_phases original edits h1 h2, ?_⟩
  rw [structured_phases original edits' h1' h2',
    structured_phases original edits h1 h2, horder]

/-- Witness for C1: a concrete insert-then-delete batch equals phase-ordered
sequential execution, and reordering the two operations leaves the result
unchanged. -/
theorem c1_witness :
    applyStructuredEdits [tA, tB] c1edits =
      executeOpsInOrder [tA, tB] (phaseOrdered (taggedOps c1edits))
    ∧ applyStructuredEdits [tA, tB] c1edits' =
        applyStructuredEdits [tA, tB] c1edits :=
  c1_phase_order_and_order_invariance [tA, tB] c1edits c1edits' rfl rfl rfl rfl
    rfl

/-- C2 (amended): the engine never aborts a batch.  Replace, split and
delete operations whose indices are missing or out of bounds are skipped,
leaving the list exactly as it was; merges with a missing or empty index set
and inserts with a missing index are likewise skipped; and the remaining
operations in the batch still take effect (a replace with index 99 on a
2-element list changes nothing while a later valid replace still applies).
(The original claim's blanket "any operation with out-of-bounds indices is
skipped" fails for merge and insert — see the counterexample and C10.) -/
theorem c2_lenient_skips (arr : List Theme) :
    (∀ f, applyReplaceOp arr none f = arr)
    ∧ (∀ i f, ¬(0 ≤ i ∧ i < (arr.length : Int)) →
        applyReplaceOp arr (some i) f = arr)
    ∧ (∀ r ii, applySplitOp arr none r ii = arr)
    ∧ (∀ i r ii, ¬(0 ≤ i ∧ i < (arr.length : Int)) →
        applySplitOp arr (some i) r ii = arr)
    ∧ (∀ f ii, applyMergeOp arr none f ii = arr)
    ∧ (∀ f ii, applyMergeOp arr (some []) f ii = arr)
    ∧ (∀ f, applyInsertOp arr none f = arr)
    ∧ applyDeleteOp arr none = arr
    ∧ (∀ l, (∀ i ∈ l, ¬(0 ≤ i ∧ i < (arr.length : Int))) →
        applyDeleteOp arr (some l) = arr)
    ∧ applyStructuredEdits [tA, tB]
        [.tagged (.replace (some 99) fX), .tagged (.replace (some 1) fY)] =
        [tA, normalizeTheme fY "Theme 2"] := by
  refine ⟨fun f => rfl, ?_, fun r ii => rfl, ?_, fun f ii => rfl,
    fun f ii => rfl, fun f => rfl, rfl, ?_, by decide⟩
  · intro i f h
    unfold applyReplaceOp
    simp only [if_neg h]
  · intro i r ii h
    unfold applySplitOp
    simp only [if_neg h]
  · intro l h
    unfold applyDeleteOp
    simp only [Option.getD_some]
    apply foldl_erase_id
    intro i hi
    exact h i ((mem_sortDescDedup l i).mp hi)

/-- C2 counterexample: a merge whose only listed index (99) is out of bounds
for the 2-element list is NOT skipped — the list changes (the merged theme
is appended), contradicting the claim that any operation with out-of-bounds
indices leaves the list exactly as it was. -/
theorem c2_counterexample :
    applyStructuredEdits [tA, tB] [.tagged (.merge (some [99]) fM none)] =
      [tA, tB, tM]
    ∧ applyStructuredEdits [tA, tB] [.tagged (.merge (some [99]) fM none)] ≠
        [tA, tB] := by
  refine ⟨by decide, by decide⟩

/-- Witness for C2: the hypothesis-bearing skip conjuncts at concrete
out-of-bounds inputs. -/
theorem c2_witness :
    applyReplaceOp [tA, tB] (some 99) fX = [tA, tB]
    ∧ applySplitOp [tA, tB] (some 5) (some [fX]) none = [tA, tB]
    ∧ applyDeleteOp [tA, tB] (some [7, -1]) = [tA, tB] := by
  obtain ⟨_, hrep, _, hsplit, _, _, _, _, hdel, _⟩ := c2_lenient_skips [tA, tB]
  exact ⟨hrep 99 fX (by decide), hsplit 5 (some [fX]) none (by decide),
    hdel [7, -1] (by decide)⟩

/-- C3: the merge branch implements exactly the specified algorithm —
deduplicated ascending index collection with empty-set skip, insertion point
from `insertIndex` clamped to bounds else the smallest listed index (proved
smallest), descending removal of exactly the listed in-range positions, one
defaulted theme built from the operation's own fields, inserted at the
clamped insertion point; merging {0,2} of [A,B,C] into M yields [M,B]. -/
theorem c3_merge_matches_spec (arr : List Theme) (l : List Int)
    (f : ThemeFields) (ii? : Option Int) :
    applyMergeOp arr (some l) f ii? = mergeAsSpecified arr l f ii?
    ∧ (l ≠ [] → smallestListed l ∈ l ∧ ∀ j ∈ l, smallestListed l ≤ j)
    ∧ applyMergeOp [tA, tB, tC] (some [0, 2]) fM none = [tM, tB] := by
  refine ⟨applyMergeOp_eq_spec arr l f ii?, smallestListed_spec l, by decide⟩

/-- Witness for C3: the refinement and the smallest-index property at a
concrete merge. -/
theorem c3_witness :
    applyMergeOp [tA, tB, tC] (some [0, 2]) fM none =
      mergeAsSpecified [tA, tB, tC] [0, 2] fM none
    ∧ (smallestListed [0, 2] ∈ ([0, 2] : List Int)
        ∧ ∀ j ∈ ([0, 2] : List Int), smallestListed [0, 2] ≤ j) := by
  obtain ⟨ha, hb, _⟩ := c3_merge_matches_spec [tA, tB, tC] [0, 2] fM none
  exact ⟨ha, hb (by decide)⟩

/-- C4 (amended): a split is skipped when its index is missing or out of
range, and also when its replacement list is empty or absent; otherwise it
removes the theme at the index, builds one defaulted replacement per element
and splices the block in at the provided `insertIndex` clamped to the
post-removal bounds, else at the original index.  Splitting index 1 of [A,B]
into [X,Y] yields [A,X,Y]. -/
theorem c4_split_matches_spec (arr : List Theme) (idx : Int)
    (reps : List ThemeFields) (ii? : Option Int) :
    (0 ≤ idx ∧ idx < (arr.length : Int) → reps ≠ [] →
      applySplitOp arr (some idx) (some reps) ii? =
        splitAsSpecified arr idx reps ii?)
    ∧ (¬(0 ≤ idx ∧ idx < (arr.length : Int)) →
        ∀ r, applySplitOp arr (some idx) r ii? = arr)
    ∧ applySplitOp [tA, tB] (some 1) (some [fX, fY]) none =
        [tA, normalizeTheme fX "Split 1", normalizeTheme fY "Split 2"] := by
  refine ⟨?_, ?_, by decide⟩
  · intro hin hreps
    unfold applySplitOp splitAsSpecified
    simp only [Option.getD_some, if_pos hin]
    have hmape : (reps.mapIdx fun j t =>
        normalizeTheme t (s!"Split {j + 1}")).isEmpty = false := by
      cases hr : reps.mapIdx fun j t => normalizeTheme t (s!"Split {j + 1}") with
      | nil =>
        have hlen := congrArg List.length hr
        simp only [List.length_mapIdx, List.length_nil] at hlen
        exact absurd (List.length_eq_zero.mp hlen) hreps
      | cons a t => rfl
    simp only [hmape, Bool.false_eq_true, if_false]
  · intro hout r
    unfold applySplitOp
    simp only [if_neg hout]

/-- C4 counterexample: a split at the in-range index 0 of [A] with an empty
replacement list is skipped by the code (the theme is NOT removed), while
the claim's unconditional remove-then-insert algorithm would leave the empty
list. -/
theorem c4_counterexample :
    applySplitOp [tA] (some 0) (some []) none = [tA]
    ∧ splitAsSpecified [tA] 0 [] none = ([] : List Theme)
    ∧ applySplitOp [tA] (some 0) (some []) none ≠
        splitAsSpecified [tA] 0 [] none := by
  refine ⟨by decide, by decide, by decide⟩

/-- Witness for C4: the refinement at a concrete in-range split and the skip
at a concrete out-of-range split. -/
theorem c4_witness :
    applySplitOp [tA, tB] (some 1) (some [fX, fY]) none =
      splitAsSpecified [tA, tB] 1 [fX, fY] none
    ∧ applySplitOp [tA, tB] (some 9) (some [fX]) none = [tA, tB] := by
  obtain ⟨h1, _, _⟩ := c4_split_matches_spec [tA, tB] 1 [fX, fY] none
  obtain ⟨_, h2, _⟩ := c4_split_matches_spec [tA, tB] 9 [fX] none
  exact ⟨h1 (by decide) (by decide), h2 (by decide) (some [fX])⟩

/-- C5 (amended): the delete phase processes the batch's delete operations
sequentially; each single operation's indices are deduplicated, sorted
descending and removed one at a time — equivalently each operation removes
exactly the in-range positions it lists from the array as that operation
finds it.  An index named by several delete operations in the same batch
therefore removes one theme per operation, not one theme overall.  Deleting
{0,2} from [A,B,C] yields [B]. -/
theorem c5_delete_per_op (arr : List Theme) (l : List Int)
    (ops : List EditOp) :
    applyDeleteOp arr (some l) = dropListed arr 0 l
    ∧ deletePhase arr ops = (ops.filter EditOp.isDeleteOp).foldl deleteStep arr
    ∧ applyDeleteOp [tA, tB, tC] (some [0, 2]) = [tB] :=
  ⟨applyDeleteOp_eq_dropListed arr l, rfl, by decide⟩

/-- C5 counterexample: the batch [delete {0}, delete {0}] on [A,B,C] removes
TWO themes (result [C]) because deduplication is per operation, not across
the gathered batch; under the claim's batch-wide gather-and-dedup semantics
index 0 would be removed once, giving [B,C]. -/
theorem c5_counterexample :
    applyStructuredEdits [tA, tB, tC]
        [.tagged (.delete (some [0])), .tagged (.delete (some [0]))] = [tC]
    ∧ applyStructuredEdits [tA, tB, tC]
        [.tagged (.delete (some [0])), .tagged (.delete (some [0]))] ≠
        [tB, tC] := by
  refine ⟨by decide, by decide⟩

/-- C6: a batch in which every element lacks the `op` tag is dispatched
whole to the legacy patch applier; a legacy patch with an in-range index
performs a per-field merge — exactly the fields present on the patch
overwrite, absent fields keep the pre-existing theme's values; patching
index 0 with only a Definition preserves the theme's label, keywords and
participant ids. -/
theorem c6_legacy_per_field (arr : List Theme) (ps : List LegacyPatch) :
    applyStructuredEdits arr (ps.map Edit.legacy) = applyLegacyPatches arr ps
    ∧ (∀ (copy : List Theme) (p : LegacyPatch) (i : Int),
        p.index = some i → 0 ≤ i → ∀ hl : i.toNat < copy.length,
        applyLegacyPatch copy p = copy.set i.toNat
          { ThemeLabel :=
              p.fields.ThemeLabel.getD (copy.get ⟨i.toNat, hl⟩).ThemeLabel
            Definition :=
              p.fields.Definition.getD (copy.get ⟨i.toNat, hl⟩).Definition
            RepresentativeKeywords := p.fields.RepresentativeKeywords.getD
              (copy.get ⟨i.toNat, hl⟩).RepresentativeKeywords
            ParticipantID :=
              match p.fields.ParticipantID with
              | some pid => pid.map CellVal.toStr
              | none => (copy.get ⟨i.toNat, hl⟩).ParticipantID })
    ∧ ∀ (t0 : Theme) (rest : List Theme) (d : String),
        applyLegacyPatches (t0 :: rest)
          [⟨some 0, ⟨none, some d, none, none⟩⟩] =
          { t0 with Definition := d } :: rest := by
  refine ⟨?_, ?_, ?_⟩
  · cases ps with
    | nil => rfl
    | cons p pt =>
      unfold applyStructuredEdits
      have hemp : ((p :: pt).map Edit.legacy).isEmpty = false := rfl
      simp only [hemp, all_isLegacy_map, legacyPatches_map,
        Bool.false_eq_true, if_false, if_true]
  · intro copy p i hip h0 hl
    have hcond : 0 ≤ i ∧ i < (copy.length : Int) := ⟨h0, by omega⟩
    unfold applyLegacyPatch
    rw [hip]
    show (if h : 0 ≤ i ∧ i < (copy.length : Int) then
        let old := copy.get ⟨i.toNat, by omega⟩
        copy.set i.toNat
          { ThemeLabel := p.fields.ThemeLabel.getD old.ThemeLabel
            Definition := p.fields.Definition.getD old.Definition
            RepresentativeKeywords :=
              p.fields.RepresentativeKeywords.getD old.RepresentativeKeywords
            ParticipantID :=
              match p.fields.ParticipantID with
              | some l => l.map CellVal.toStr
              | none => old.ParticipantID }
      else copy) = _
    rw [dif_pos hcond]
  · intro t0 rest d
    have hcond : (0 : Int) ≤ 0 ∧ (0 : Int) < ((t0 :: rest).length : Int) :=
      ⟨le_refl 0,
        Int.natCast_pos.mpr (List.length_pos.mpr (List.cons_ne_nil t0 rest))⟩
    show applyLegacyPatchAt (t0 :: rest) ⟨none, some d, none, none⟩ (some 0) =
      { t0 with Definition := d } :: rest
    show (if h : (0 : Int) ≤ 0 ∧ (0 : Int) < ((t0 :: rest).length : Int) then
        let old := (t0 :: rest).get ⟨(0 : Int).toNat, by omega⟩
        (t0 :: rest).set (0 : Int).toNat
          { ThemeLabel := (none : Option String).getD old.ThemeLabel
            Definition := (some d).getD old.Definition
            RepresentativeKeywords :=
              (none : Option (List String)).getD old.RepresentativeKeywords
            ParticipantID := old.ParticipantID }
      else t0 :: rest) = _
    rw [dif_pos hcond]
    rfl

/-- Witness for C6: the per-field-merge conjunct at a concrete patch. -/
theorem c6_witness :
    applyLegacyPatch [tA, tB] ⟨some 0, ⟨none, some "z", none, none⟩⟩ =
      [{ tA with Definition := "z" }, tB] := by
  have h := (c6_legacy_per_field [tA, tB] []).2.1 [tA, tB]
    ⟨some 0, ⟨none, some "z", none, none⟩⟩ 0 rfl (by decide) (by decide)
  rw [h]
  decide

/-- C7: applying an empty operation list returns a sequence equal to the
input, for both the structured engine and the legacy applier.  (Purity of
the JS function with respect to its arguments holds by construction: the
source copies the input array before splicing and builds fresh theme
objects; in this pure embedding mutation is not expressible.) -/
theorem c7_noop_batch (original : List Theme) :
    applyStructuredEdits original [] = original
    ∧ applyLegacyPatches original [] = original :=
  ⟨rfl, rfl⟩

/-- C10: a merge whose non-empty index set lies entirely out of bounds is
not skipped: nothing is removed, but the single theme built from the
operation's own fields is still inserted, so the list grows by exactly one
element with the original themes kept in order. -/
theorem c10_oob_merge_inserts (arr : List Theme) (l : List Int)
    (f : ThemeFields) (ii? : Option Int) (hne : l ≠ [])
    (hoob : ∀ i ∈ l, i < 0 ∨ (arr.length : Int) ≤ i) :
    (applyMergeOp arr (some l) f ii?).length = arr.length + 1
    ∧ ∃ n ≤ arr.length, applyMergeOp arr (some l) f ii? =
        arr.take n ++ normalizeTheme f "Merged Theme" :: arr.drop n := by
  have hrem : (List.insertionSort (· ≤ ·) l.dedup).reverse.foldl eraseIfInRange
      arr = arr := by
    apply foldl_erase_id
    intro i hi
    have hmem : i ∈ l := (mem_sortAscDedup l i).mp (List.mem_reverse.mp hi)
    rcases hoob i hmem with hh | hh
    · omega
    · omega
  have hne2 := sortAscDedup_isEmpty_false l hne
  unfold applyMergeOp
  simp only [Option.getD_some, hne2, Bool.false_eq_true, if_false, hrem]
  exact insertManyAt_singleton_clamp arr _ _

/-- Witness for C10: merging the out-of-bounds index {5} over the singleton
list [A] appends the merged theme. -/
theorem c10_witness :
    (applyMergeOp [tA] (some [5]) fM none).length = [tA].length + 1
    ∧ ∃ n ≤ [tA].length, applyMergeOp [tA] (some [5]) fM none =
        [tA].take n ++ normalizeTheme fM "Merged Theme" :: [tA].drop n :=
  c10_oob_merge_inserts [tA] [5] fM none (by decide) (by decide)

/-- C8: `parseJsonMaybe` applies its recovery strategy in exactly the
documented order — trim and strip an optional fenced code block (with
optional language tag), return a successful direct parse as is, otherwise
attempt the first-`[`-to-last-`]` slice, otherwise the first-brace-to-last-
brace slice, and only if all attempts fail signal a parse failure (`none`).
The wrapped input "Sure! Here you go: [1,2,3] Hope that helps." parses to
the array [1,2,3]. -/
theorem c8_parser_strategy_order (text : String) :
    (∀ v, jsonParse (preprocessText text) = some v →
      parseJsonMaybe text = some v)
    ∧ (jsonParse (preprocessText text) = none →
        ∀ v, attemptArraySlice (preprocessText text).toList = some v →
          parseJsonMaybe text = some v)
    ∧ (jsonParse (preprocessText text) = none →
        attemptArraySlice (preprocessText text).toList = none →
        parseJsonMaybe text = attemptObjSlice (preprocessText text).toList)
    ∧ parseJsonMaybe "Sure! Here you go: [1,2,3] Hope that helps." =
        some (Json.arr [Json.num 1, Json.num 2, Json.num 3]) := by
  have hdef : parseJsonMaybe text =
      (match jsonParse (preprocessText text) with
       | some v => some v
       | none =>
         match attemptArraySlice (preprocessText text).toList with
         | some v => some v
         | none => attemptObjSlice (preprocessText text).toList) := rfl
  refine ⟨?_, ?_, ?_, rfl⟩
  · intro v hv
    rw [hdef, hv]
  · intro h0 v hv
    rw [hdef, h0, hv]
  · intro h0 h1
    rw [hdef, h0, h1]

/-- Witness for C8: on the wrapped input the direct parse fails and the
array-slice fallback succeeds, so the second strategy stage returns the
array. -/
theorem c8_witness :
    parseJsonMaybe "Sure! Here you go: [1,2,3] Hope that helps." =
      some (Json.arr [Json.num 1, Json.num 2, Json.num 3]) :=
  (c8_parser_strategy_order "Sure! Here you go: [1,2,3] Hope that helps.").2.1
    rfl (Json.arr [Json.num 1, Json.num 2, Json.num 3]) rfl

/-- C9 (amended): the displayed coverage percentage equals the theme's
distinct string-normalized participant-id count divided by the denominator,
times 100, rounded to one decimal place; the denominator is the size of the
question's respondent universe when positive, else the size of the union of
ids assigned across the question's themes, else 1.  (When the denominator
falls back to 1 the displayed value is not necessarily 0% — a theme whose id
list holds only empty/null-like entries still counts them, see the
counterexample.)  A universe of 10 distinct ids and a theme with 3 distinct
normalized ids gives 30.0%. -/
theorem c9_coverage_formula (rows : List Row) (skip : Bool)
    (themes : List (List CellVal)) (pids : List CellVal) :
    themePct rows skip themes pids =
      ((round (((themeIdCount pids : ℚ) / (safeDenom rows skip themes : ℚ))
        * 100 * 10) : ℤ) : ℚ) / 10
    ∧ (0 < (computeQuestionUniverse rows skip).length →
        safeDenom rows skip themes = (computeQuestionUniverse rows skip).length)
    ∧ ((computeQuestionUniverse rows skip).length = 0 →
        0 < (unionAssignedIds themes).length →
        safeDenom rows skip themes = (unionAssignedIds themes).length)
    ∧ ((computeQuestionUniverse rows skip).length = 0 →
        (unionAssignedIds themes).length = 0 →
        safeDenom rows skip themes = 1)
    ∧ themePct sampleRows true [pids3] pids3 = 30 := by
  refine ⟨?_, ?_, ?_, ?_, ?_⟩
  · unfold themePct
    rw [show ((themeIdCount pids : ℚ) / (safeDenom rows skip themes : ℚ))
        * 100 * 10
        = ((themeIdCount pids : ℚ) / (safeDenom rows skip themes : ℚ)) * 1000
      from by ring]
  · intro h
    have hc : coverageDenom rows skip themes =
        (computeQuestionUniverse rows skip).length := by
      show (if (computeQuestionUniverse rows skip).length > 0
          then (computeQuestionUniverse rows skip).length
          else (unionAssignedIds themes).length) = _
      exact if_pos h
    show (if coverageDenom rows skip themes > 0
        then coverageDenom rows skip themes else 1) = _
    rw [hc]
    exact if_pos h
  · intro h0 hu
    have hc : coverageDenom rows skip themes =
        (unionAssignedIds themes).length := by
      show (if (computeQuestionUniverse rows skip).length > 0
          then (computeQuestionUniverse rows skip).length
          else (unionAssignedIds themes).length) = _
      rw [h0]
      exact if_neg (by omega)
    show (if coverageDenom rows skip themes > 0
        then coverageDenom rows skip themes else 1) = _
    rw [hc]
    exact if_pos hu
  · intro h0 hu0
    have hc : coverageDenom rows skip themes = 0 := by
      show (if (computeQuestionUniverse rows skip).length > 0
          then (computeQuestionUniverse rows skip).length
          else (unionAssignedIds themes).length) = _
      rw [h0, hu0]
      exact if_neg (by omega)
    show (if coverageDenom rows skip themes > 0
        then coverageDenom rows skip themes else 1) = _
    rw [hc]
    exact if_neg (by omega)
  · have hd : safeDenom sampleRows true [pids3] = 10 := by decide
    have hc : themeIdCount pids3 = 3 := by decide
    unfold themePct
    rw [hd, hc]
    norm_num [round_eq]

/-- C9 counterexample: with no rows the respondent universe is empty, and a
theme whose ParticipantID list is [""] contributes nothing to the union
fallback (empty-string ids are excluded there), so the denominator floors at
1 — but the displayed percentage for that theme is 100%, not the claimed 0%,
because the badge's distinct-id count does include the empty string. -/
theorem c9_counterexample :
    safeDenom [] true [[CellVal.str ""]] = 1
    ∧ themePct [] true [[CellVal.str ""]] [CellVal.str ""] = 100
    ∧ (100 : ℚ) ≠ 0 := by
  refine ⟨rfl, ?_, by norm_num⟩
  have hd : safeDenom [] true [[CellVal.str ""]] = 1 := rfl
  have hc : themeIdCount [CellVal.str ""] = 1 := rfl
  unfold themePct
  rw [hd, hc]
  norm_num [round_eq]

/-- Witness for C9: the three denominator branches at concrete inputs. -/
theorem c9_witness :
    safeDenom sampleRows true [pids3] =
      (computeQuestionUniverse sampleRows true).length
    ∧ safeDenom [] true [[CellVal.str "x"]] =
        (unionAssignedIds [[CellVal.str "x"]]).length
    ∧ safeDenom [] true [] = 1 := by
  obtain ⟨_, h2, _, _, _⟩ := c9_coverage_formula sampleRows true [pids3] pids3
  obtain ⟨_, _, h3, _, _⟩ := c9_coverage_formula [] true [[CellVal.str "x"]] []
  obtain ⟨_, _, _, h4, _⟩ := c9_coverage_formula [] true [] []
  exact ⟨h2 (by decide), h3 (by decide) (by decide),
    h4 (by decide) (by decide)⟩

end AvVerbs
